import Mathlib

/-!
# Verification of `src/utils.py` (ml_ecol_project)

Shallow embedding of the dataset/metric utility module of the repository:
the un-normalization transform, the streaming confusion-matrix tracker
(`MetricTracker`), the class-balanced index selector
(`get_balanced_indices`), the directory-scanning dataset (`ECOLDataset`)
and the train/validation split of `load_dataset_ECOL_labeled`.

Real-valued tensor entries (losses, logits, confidences, normalization
statistics) are modelled as rationals with exact arithmetic; the sigmoid
function of the deep-learning framework is an abstract parameter
`σ : ℚ → ℚ`.  Fallible operations (division by zero, index errors,
`np.random.choice` with an oversized request) return `Option`.  The
pseudo-random choices of numpy are modelled by an explicit stream of
numbers `r : List ℕ` driving a draw-without-replacement loop.
-/

/-! ## UnNormalize (utils.py lines 17-32) and the normalization it inverts -/

/-- One channel of `t.mul_(s).add_(m)`: every entry is multiplied by the
std and the mean is added. -/
def unNormChan (m s : ℚ) (t : List ℚ) : List ℚ :=
  t.map (fun x => x * s + m)

/-- One channel of the framework's normalize, `t.sub_(m).div_(s)`
(quoted in the source comment): subtract the mean, divide by the std. -/
def normChan (m s : ℚ) (t : List ℚ) : List ℚ :=
  t.map (fun x => (x - m) / s)

/-- `UnNormalize.__call__`: `for t, m, s in zip(tensor, mean, std): t.mul_(s).add_(m)`.
Channels beyond the length of `mean`/`std` are left untouched (the zip stops),
and the mutated tensor is returned. -/
def UnNormalize_call : List ℚ → List ℚ → List (List ℚ) → List (List ℚ)
  | m :: ms, s :: ss, t :: ts => unNormChan m s t :: UnNormalize_call ms ss ts
  | _, _, ts => ts

/-- Per-channel normalization `(c - mean[c]) / std[c]` applied the same
zip-wise way, as described in the source comment for the normalize code. -/
def Normalize_call : List ℚ → List ℚ → List (List ℚ) → List (List ℚ)
  | m :: ms, s :: ss, t :: ts => normChan m s t :: Normalize_call ms ss ts
  | _, _, ts => ts

/-! ## MetricTracker (utils.py lines 36-91) -/

/-- The four confusion-matrix buckets. -/
inductive ConfKey
  | tp
  | tn
  | fp
  | fn
  deriving DecidableEq, Repr

/-- State of `MetricTracker`: running loss statistics and, per bucket,
a count, the list of prediction confidences, and the list of source paths. -/
structure MetricTracker where
  batches_cnt : ℕ
  total_loss : ℚ
  avg_loss : ℚ
  confusion_cnt : ConfKey → ℕ
  confusion_arrays : ConfKey → List ℚ
  confusion_paths : ConfKey → List String

/-- `MetricTracker.__init__`: everything starts at zero / empty. -/
def MetricTracker.mkEmpty : MetricTracker where
  batches_cnt := 0
  total_loss := 0
  avg_loss := 0
  confusion_cnt := fun _ => 0
  confusion_arrays := fun _ => []
  confusion_paths := fun _ => []

/-- The if/elif chain of `update` choosing the bucket from the binarized
prediction (`pb` = `preds_binary[i]`) and the label. -/
def bucketKey (pb : Bool) (label : ℕ) : ConfKey :=
  if pb = false ∧ label = 0 then .tn
  else if pb = true ∧ label = 1 then .tp
  else if pb = false ∧ label = 1 then .fn
  else .fp

/-- One iteration of the loop body of `update`, for a sample with sigmoid
confidence `conf`, label `label` and (optional) source path `path`:
the selected bucket's count grows by one, `conf` is appended to its
confidence array, and the path is appended exactly when it is present. -/
def MetricTracker.confStep (t : MetricTracker) (conf : ℚ) (label : ℕ)
    (path : Option String) : MetricTracker :=
  let k := bucketKey (decide ((1 : ℚ)/2 < conf)) label
  { t with
    confusion_cnt := fun k2 => if k2 = k then t.confusion_cnt k2 + 1 else t.confusion_cnt k2
    confusion_arrays := fun k2 =>
      if k2 = k then t.confusion_arrays k2 ++ [conf] else t.confusion_arrays k2
    confusion_paths := fun k2 =>
      match path with
      | none => t.confusion_paths k2
      | some p => if k2 = k then t.confusion_paths k2 ++ [p] else t.confusion_paths k2 }

/-- The whole loop of `update` over the per-sample triples. -/
def MetricTracker.updateSamples : MetricTracker → List (ℚ × ℕ × Option String) → MetricTracker
  | t, [] => t
  | t, (c, l, p) :: rest => (t.confStep c l p).updateSamples rest

/-- The per-sample triples `(preds_sigmoid[i], labels[i], paths[i] or None)`
ranged over by the loop of `update`. -/
def mkSamples (σ : ℚ → ℚ) (preds : List ℚ) (labels : List ℕ)
    (paths : Option (List String)) : List (ℚ × ℕ × Option String) :=
  match paths with
  | none => (preds.zip labels).map (fun s => (σ s.1, s.2, none))
  | some ps => ((preds.zip labels).zip ps).map (fun s => (σ s.1.1, s.1.2, some s.2))

/-- `MetricTracker.update(loss, preds, labels, paths)`: bump the batch
count, accumulate the loss, recompute the running average, then classify
every sample into its confusion bucket.  `σ` is the framework's sigmoid. -/
def MetricTracker.update (t : MetricTracker) (σ : ℚ → ℚ) (loss : ℚ)
    (preds : List ℚ) (labels : List ℕ) (paths : Option (List String)) : MetricTracker :=
  let t1 : MetricTracker :=
    { t with
      batches_cnt := t.batches_cnt + 1
      total_loss := t.total_loss + loss
      avg_loss := (t.total_loss + loss) / ((t.batches_cnt : ℚ) + 1) }
  t1.updateSamples (mkSamples σ preds labels paths)

/-- One `update` call's arguments (the sigmoid is fixed by the framework,
so it is not part of the call data). -/
structure UpdateCall where
  loss : ℚ
  preds : List ℚ
  labels : List ℕ
  paths : Option (List String)

/-- A sequence of `update` calls, applied in order. -/
def MetricTracker.updateMany (σ : ℚ → ℚ) : MetricTracker → List UpdateCall → MetricTracker
  | t, [] => t
  | t, c :: cs => (t.update σ c.loss c.preds c.labels c.paths).updateMany σ cs

/-- `get_accuracy`: `100 * (tp + tn) / (tp + tn + fp + fn)`.  A zero
denominator yields no numeric result (numpy produces a division-by-zero
`nan` there), modelled as `none`. -/
def MetricTracker.get_accuracy (t : MetricTracker) : Option ℚ :=
  let confusion_cnt_sum :=
    t.confusion_cnt .tp + t.confusion_cnt .tn + t.confusion_cnt .fp + t.confusion_cnt .fn
  if confusion_cnt_sum = 0 then none
  else some (100 * (((t.confusion_cnt .tp + t.confusion_cnt .tn : ℕ) : ℚ) / confusion_cnt_sum))

/-- `get_precision`: `tp / (tp + fp)`, a `ZeroDivisionError` (here `none`)
when the denominator is zero. -/
def MetricTracker.get_precision (t : MetricTracker) : Option ℚ :=
  if t.confusion_cnt .tp + t.confusion_cnt .fp = 0 then none
  else some (((t.confusion_cnt .tp : ℚ)) / ((t.confusion_cnt .tp + t.confusion_cnt .fp : ℕ) : ℚ))

/-- `get_recall`: `tp / (tp + fn)`, a `ZeroDivisionError` (here `none`)
when the denominator is zero. -/
def MetricTracker.get_recall (t : MetricTracker) : Option ℚ :=
  if t.confusion_cnt .tp + t.confusion_cnt .fn = 0 then none
  else some (((t.confusion_cnt .tp : ℚ)) / ((t.confusion_cnt .tp + t.confusion_cnt .fn : ℕ) : ℚ))

/-! ## Balanced index selection (utils.py lines 105-119) -/

/-- `np.random.choice(pop, k, replace=False)`, driven by a stream `r` of
random numbers: repeatedly pick the element at position
`r_i mod (remaining population size)` and remove it.  Fails (`none`,
numpy raises `ValueError`) exactly when more samples are requested than
the population holds. -/
def choiceNoReplace : List ℕ → ℕ → List ℕ → Option (List ℕ)
  | _, 0, _ => some []
  | pop, k + 1, r =>
    if h : 0 < pop.length then
      let x := pop.get ⟨r.headD 0 % pop.length, Nat.mod_lt _ h⟩
      (choiceNoReplace (pop.erase x) k r.tail).map (fun rest => x :: rest)
    else
      none

/-- `positive_indices`: the indices `i` with `dataset.samples[i][1] == 1`. -/
def positiveIndices (samples : List (String × ℕ)) : List ℕ :=
  (List.range samples.length).filter (fun i => (samples.getD i ("", 0)).2 = 1)

/-- `negative_indices`: the indices `i` with `dataset.samples[i][1] == 0`. -/
def negativeIndices (samples : List (String × ℕ)) : List ℕ :=
  (List.range samples.length).filter (fun i => (samples.getD i ("", 0)).2 = 0)

/-- `get_balanced_indices(dataset)`: all positive indices, followed by
`len(positive_indices)` negatives drawn without replacement
(`np.hstack` of the two arrays). -/
def get_balanced_indices (samples : List (String × ℕ)) (r : List ℕ) : Option (List ℕ) :=
  (choiceNoReplace (negativeIndices samples) (positiveIndices samples).length r).map
    (fun negative_indices_balanced => positiveIndices samples ++ negative_indices_balanced)

/-! ## ECOLDataset (utils.py lines 123-167)

The file system under `root_dir` is modelled as a list of
`(subdirectory name, names of the images inside it)` pairs, in the order
`os.listdir` happens to return the subdirectories. -/

/-- `os.path.join`. -/
def joinPath (a b : String) : String := a ++ "/" ++ b

/-- `self.subdirs = os.listdir(root); self.subdirs.sort()`. -/
def subdirsSorted (fs : List (String × List String)) : List String :=
  List.insertionSort (· ≤ ·) (fs.map Prod.fst)

/-- The dict building `for i, subdir in enumerate(subdirs): map[subdir] = i`,
starting from index `i`; a later binding of the same key overwrites an
earlier one, as for a Python dict. -/
def buildLabelMap : List String → ℕ → (String → ℕ) → (String → ℕ)
  | [], _, m => m
  | d :: ds, i, m => buildLabelMap ds (i + 1) (fun s => if s = d then i else m s)

/-- `self.dir_label_map`: subdirectory name to its position in the sorted list. -/
def dirLabelMap (subdirs : List String) : String → ℕ :=
  buildLabelMap subdirs 0 (fun _ => 0)

/-- `os.listdir(subdir_path)`: the images recorded for the named
subdirectory. -/
def filesOf (fs : List (String × List String)) (d : String) : List String :=
  ((fs.find? (fun p => p.1 == d)).map Prod.snd).getD []

/-- `self.samples`: for every subdirectory (in sorted order), for every
image inside it, the pair `(root/subdir/img, dir_label_map[subdir])`. -/
def ECOLDataset.samples (root : String) (fs : List (String × List String)) :
    List (String × ℕ) :=
  (subdirsSorted fs).flatMap (fun subdir =>
    (filesOf fs subdir).map (fun img_name =>
      (joinPath (joinPath root subdir) img_name, dirLabelMap (subdirsSorted fs) subdir)))

/-- `ECOLDataset.__len__`: `self.len = len(self.samples)`. -/
def ECOLDataset.length (root : String) (fs : List (String × List String)) : ℕ :=
  (ECOLDataset.samples root fs).length

/-- `ECOLDataset.__getitem__(idx)`: the sample at position `idx`, its image
read (`cv2.imread`), color-converted (`cv2.cvtColor`) and transformed; an
out-of-range index is an error (`none`).  The three image operations are
abstract parameters. -/
def ECOLDataset.getItem {Img : Type} (imread : String → Img) (cvtColor : Img → Img)
    (transform : Img → Img) (root : String) (fs : List (String × List String))
    (idx : ℕ) : Option (Img × ℕ × String) :=
  ((ECOLDataset.samples root fs).get? idx).map
    (fun s => (transform (cvtColor (imread s.1)), s.2, s.1))

/-! ## load_dataset_ECOL_labeled (utils.py lines 171-238)

Only the index bookkeeping is modelled: which indices are selected, and
which of them go to the validation and training samplers.  `r` drives the
balancing draw, `rs` the shuffling draw. -/

/-- The selected `dataset_indices` together with the final `dataset_size`:
balanced indices (or all of `range(len(dataset))`), the size capped at the
number of balanced indices, then either an order-randomizing draw of
`dataset_size` indices without replacement or plain truncation. -/
def selectIndices (samples : List (String × ℕ)) (balance shuffle : Bool)
    (r rs : List ℕ) (dataset_size_arg : Option ℕ) : Option (List ℕ × ℕ) :=
  let dsize0 := dataset_size_arg.getD samples.length
  let chosen : Option (List ℕ × ℕ) :=
    if balance then
      (get_balanced_indices samples r).map
        (fun di => (di, if di.length < dsize0 then di.length else dsize0))
    else
      some (List.range samples.length, dsize0)
  chosen.bind (fun di =>
    if shuffle then
      (choiceNoReplace di.1 di.2 rs).map (fun l => (l, di.2))
    else
      some (di.1.take di.2, di.2))

/-- `val_split_index = int(np.floor(test_size * dataset_size))`. -/
def valSplitIndex (test_size : ℚ) (dataset_size : ℕ) : ℕ :=
  (⌊test_size * (dataset_size : ℚ)⌋).toNat

/-- The index split of `load_dataset_ECOL_labeled`: the validation sampler
receives `dataset_indices[:val_split_index]`, the training sampler
`dataset_indices[val_split_index:]`; returned as `(train, val)`. -/
def load_dataset_ECOL_labeled (samples : List (String × ℕ)) (balance shuffle : Bool)
    (r rs : List ℕ) (dataset_size_arg : Option ℕ) (test_size : ℚ) :
    Option (List ℕ × List ℕ) :=
  (selectIndices samples balance shuffle r rs dataset_size_arg).map
    (fun di =>
      let v := valSplitIndex test_size di.2
      (di.1.drop v, di.1.take v))

/-! ## Remaining definitions for the statements -/

/-- The bucket the loop of `update` assigns to one per-sample triple. -/
def sampleKey (s : ℚ × ℕ × Option String) : ConfKey :=
  bucketKey (decide ((1 : ℚ)/2 < s.1)) s.2.1

/-- The `MetricTracker` states reachable from a fresh tracker by `update`
calls whose tensors agree in length.  The `ℕ` component counts the
individual samples processed so far; the `Bool` component records whether
every call so far supplied `paths`. -/
inductive Reachable : MetricTracker → ℕ → Bool → Prop
  | start : Reachable MetricTracker.mkEmpty 0 true
  | stepNone (σ : ℚ → ℚ) (loss : ℚ) (preds : List ℚ) (labels : List ℕ)
      {t : MetricTracker} {n : ℕ} {b : Bool} :
      Reachable t n b → preds.length = labels.length →
      Reachable (t.update σ loss preds labels none) (n + labels.length) false
  | stepSome (σ : ℚ → ℚ) (loss : ℚ) (preds : List ℚ) (labels : List ℕ)
      (ps : List String) {t : MetricTracker} {n : ℕ} {b : Bool} :
      Reachable t n b → preds.length = labels.length → ps.length = labels.length →
      Reachable (t.update σ loss preds labels (some ps)) (n + labels.length) b

/-! ## Theorems -/

/-! ### C6: UnNormalize inverts per-channel normalization -/

theorem unNormChan_normChan (m s : ℚ) (t : List ℚ) (hs : s ≠ 0) :
    unNormChan m s (normChan m s t) = t := by
  unfold unNormChan normChan
  rw [List.map_map]
  have h1 : ∀ x ∈ t, ((fun x : ℚ => x * s + m) ∘ fun x : ℚ => (x - m) / s) x = x := by
    intro x _
    simp only [Function.comp_apply]
    field_simp
  rw [List.map_congr_left h1]; exact List.map_id' t

/-- C6: `UnNormalize(mean, std)` undoes per-channel normalization
`(c - mean[c]) / std[c]` exactly, on every channel covered by `mean` and
`std` (channels beyond them are touched by neither map). -/
theorem unNormalize_inverts_normalize (mean std : List ℚ) (tensor : List (List ℚ))
    (hstd : ∀ s ∈ std, s ≠ 0) :
    UnNormalize_call mean std (Normalize_call mean std tensor) = tensor := by
  induction mean generalizing std tensor with
  | nil => rfl
  | cons m ms ih =>
    cases std with
    | nil => rfl
    | cons s ss =>
      cases tensor with
      | nil => rfl
      | cons t ts =>
        have hs : s ≠ 0 := hstd s (List.mem_cons_self s ss)
        have hss : ∀ x ∈ ss, x ≠ 0 := fun x hx => hstd x (List.mem_cons_of_mem s hx)
        show unNormChan m s (normChan m s t) :: UnNormalize_call ms ss (Normalize_call ms ss ts) = t :: ts
        rw [unNormChan_normChan m s t hs, ih ss ts hss]

/-- Witness for C6: a concrete two-channel tensor round-trips. -/
theorem unNormalize_inverts_normalize_witness :
    (∀ s ∈ [(2 : ℚ), 4], s ≠ 0) ∧
      UnNormalize_call [3, 1] [2, 4] (Normalize_call [3, 1] [2, 4] [[5, 7], [9]]) =
        [[5, 7], [9]] :=
  ⟨by norm_num, unNormalize_inverts_normalize [3, 1] [2, 4] [[5, 7], [9]] (by norm_num)⟩

/-! ### C4: running loss statistics -/

theorem confStep_batches_cnt (t : MetricTracker) (c : ℚ) (l : ℕ) (p : Option String) :
    (t.confStep c l p).batches_cnt = t.batches_cnt := rfl

theorem confStep_total_loss (t : MetricTracker) (c : ℚ) (l : ℕ) (p : Option String) :
    (t.confStep c l p).total_loss = t.total_loss := rfl

theorem confStep_avg_loss (t : MetricTracker) (c : ℚ) (l : ℕ) (p : Option String) :
    (t.confStep c l p).avg_loss = t.avg_loss := rfl

theorem updateSamples_loss_fields (ss : List (ℚ × ℕ × Option String)) (t : MetricTracker) :
    (t.updateSamples ss).batches_cnt = t.batches_cnt ∧
    (t.updateSamples ss).total_loss = t.total_loss ∧
    (t.updateSamples ss).avg_loss = t.avg_loss := by
  induction ss generalizing t with
  | nil => exact ⟨rfl, rfl, rfl⟩
  | cons s rest ih =>
    obtain ⟨c, l, p⟩ := s
    exact ih (t.confStep c l p)

theorem update_batches_cnt (t : MetricTracker) (σ : ℚ → ℚ) (loss : ℚ)
    (preds : List ℚ) (labels : List ℕ) (paths : Option (List String)) :
    (t.update σ loss preds labels paths).batches_cnt = t.batches_cnt + 1 :=
  (updateSamples_loss_fields _ _).1

theorem update_total_loss (t : MetricTracker) (σ : ℚ → ℚ) (loss : ℚ)
    (preds : List ℚ) (labels : List ℕ) (paths : Option (List String)) :
    (t.update σ loss preds labels paths).total_loss = t.total_loss + loss :=
  (updateSamples_loss_fields _ _).2.1

theorem update_avg_loss (t : MetricTracker) (σ : ℚ → ℚ) (loss : ℚ)
    (preds : List ℚ) (labels : List ℕ) (paths : Option (List String)) :
    (t.update σ loss preds labels paths).avg_loss =
      (t.total_loss + loss) / ((t.batches_cnt : ℚ) + 1) :=
  (updateSamples_loss_fields _ _).2.2

theorem updateMany_loss_stats (σ : ℚ → ℚ) (cs : List UpdateCall) (t : MetricTracker) :
    (t.updateMany σ cs).batches_cnt = t.batches_cnt + cs.length ∧
    (t.updateMany σ cs).total_loss = t.total_loss + (cs.map UpdateCall.loss).sum ∧
    (cs ≠ [] → (t.updateMany σ cs).avg_loss =
      (t.updateMany σ cs).total_loss / ((t.updateMany σ cs).batches_cnt : ℚ)) := by
  induction cs generalizing t with
  | nil => exact ⟨rfl, by simp [MetricTracker.updateMany], by simp⟩
  | cons c rest ih =>
    set t1 := t.update σ c.loss c.preds c.labels c.paths with ht1
    have hm : t.updateMany σ (c :: rest) = t1.updateMany σ rest := rfl
    obtain ⟨ihc, iht, iha⟩ := ih t1
    refine ⟨?_, ?_, ?_⟩
    · rw [hm, ihc, ht1, update_batches_cnt]
      simp [Nat.add_assoc, Nat.add_comm 1 rest.length]
    · rw [hm, iht, ht1, update_total_loss]
      simp [add_assoc]
    · intro _
      rw [hm]
      by_cases hrest : rest = []
      · subst hrest
        show t1.avg_loss = t1.total_loss / (t1.batches_cnt : ℚ)
        rw [ht1, update_avg_loss, update_total_loss, update_batches_cnt]
        push_cast
        ring_nf
      · exact iha hrest

/-- C4: after a sequence of `update` calls with losses `l_1 .. l_n`, the
tracker holds `batches_cnt = n`, `total_loss = l_1 + ... + l_n`, and
`avg_loss = total_loss / n` (for `n = 0` both sides are `0`). -/
theorem update_loss_running_average (σ : ℚ → ℚ) (cs : List UpdateCall) :
    (MetricTracker.mkEmpty.updateMany σ cs).batches_cnt = cs.length ∧
    (MetricTracker.mkEmpty.updateMany σ cs).total_loss = (cs.map UpdateCall.loss).sum ∧
    (MetricTracker.mkEmpty.updateMany σ cs).avg_loss =
      (cs.map UpdateCall.loss).sum / (cs.length : ℚ) := by
  obtain ⟨hc, ht, ha⟩ := updateMany_loss_stats σ cs MetricTracker.mkEmpty
  have hc0 : (MetricTracker.mkEmpty.updateMany σ cs).batches_cnt = cs.length := by
    simpa [MetricTracker.mkEmpty] using hc
  have ht0 : (MetricTracker.mkEmpty.updateMany σ cs).total_loss = (cs.map UpdateCall.loss).sum := by
    simpa [MetricTracker.mkEmpty] using ht
  refine ⟨hc0, ht0, ?_⟩
  by_cases hcs : cs = []
  · subst hcs
    simp [MetricTracker.updateMany, MetricTracker.mkEmpty]
  · rw [ha hcs, hc0, ht0]

/-! ### C8: partiality of the metric getters -/

/-- C8: `get_precision` has no numeric result exactly when `tp + fp = 0`,
`get_recall` exactly when `tp + fn = 0`, `get_accuracy` exactly when all
four confusion counts are `0`; in particular all three fail on a freshly
constructed tracker. -/
theorem metric_getters_zero_denominator (t : MetricTracker) :
    (t.get_precision = none ↔ t.confusion_cnt .tp + t.confusion_cnt .fp = 0) ∧
    (t.get_recall = none ↔ t.confusion_cnt .tp + t.confusion_cnt .fn = 0) ∧
    (t.get_accuracy = none ↔
      (t.confusion_cnt .tp = 0 ∧ t.confusion_cnt .tn = 0 ∧
       t.confusion_cnt .fp = 0 ∧ t.confusion_cnt .fn = 0)) ∧
    MetricTracker.mkEmpty.get_precision = none ∧
    MetricTracker.mkEmpty.get_recall = none ∧
    MetricTracker.mkEmpty.get_accuracy = none := by
  refine ⟨?_, ?_, ?_, ?_, ?_, ?_⟩
  · unfold MetricTracker.get_precision
    split <;> simp_all
  · unfold MetricTracker.get_recall
    split <;> simp_all
  · simp only [MetricTracker.get_accuracy]
    split_ifs with h
    · exact iff_of_true rfl (by omega)
    · exact iff_of_false (by simp) (by omega)
  · rfl
  · rfl
  · rfl

/-- Witness for C8 applying the theorem at a concrete tracker. -/
theorem metric_getters_zero_denominator_witness :
    MetricTracker.mkEmpty.get_precision = none :=
  (metric_getters_zero_denominator MetricTracker.mkEmpty).2.2.2.1

/-! ### The loop of `update`: bucket bookkeeping -/

theorem confStep_confusion_cnt (t : MetricTracker) (c : ℚ) (l : ℕ) (p : Option String)
    (k : ConfKey) :
    (t.confStep c l p).confusion_cnt k =
      if sampleKey (c, l, p) = k then t.confusion_cnt k + 1 else t.confusion_cnt k := by
  show (if k = sampleKey (c, l, p) then t.confusion_cnt k + 1 else t.confusion_cnt k) = _
  rcases eq_or_ne (sampleKey (c, l, p)) k with hk | hk
  · rw [if_pos hk.symm, if_pos hk]
  · rw [if_neg (Ne.symm hk), if_neg hk]

theorem confStep_confusion_arrays (t : MetricTracker) (c : ℚ) (l : ℕ) (p : Option String)
    (k : ConfKey) :
    (t.confStep c l p).confusion_arrays k =
      if sampleKey (c, l, p) = k then t.confusion_arrays k ++ [c] else t.confusion_arrays k := by
  show (if k = sampleKey (c, l, p) then t.confusion_arrays k ++ [c] else t.confusion_arrays k) = _
  rcases eq_or_ne (sampleKey (c, l, p)) k with hk | hk
  · rw [if_pos hk.symm, if_pos hk]
  · rw [if_neg (Ne.symm hk), if_neg hk]

theorem confStep_confusion_paths (t : MetricTracker) (c : ℚ) (l : ℕ) (p : Option String)
    (k : ConfKey) :
    (t.confStep c l p).confusion_paths k =
      if sampleKey (c, l, p) = k then t.confusion_paths k ++ p.toList
      else t.confusion_paths k := by
  cases p with
  | none =>
    show t.confusion_paths k = _
    rcases eq_or_ne (sampleKey (c, l, none)) k with hk | hk
    · rw [if_pos hk, Option.toList_none, List.append_nil]
    · rw [if_neg hk]
  | some q =>
    show (if k = sampleKey (c, l, some q) then t.confusion_paths k ++ [q] else t.confusion_paths k) = _
    rcases eq_or_ne (sampleKey (c, l, some q)) k with hk | hk
    · rw [if_pos hk.symm, if_pos hk, Option.toList_some]
    · rw [if_neg (Ne.symm hk), if_neg hk]

theorem updateSamples_spec (ss : List (ℚ × ℕ × Option String)) (t : MetricTracker)
    (k : ConfKey) :
    (t.updateSamples ss).confusion_cnt k =
      t.confusion_cnt k + (ss.filter (fun s => sampleKey s = k)).length ∧
    (t.updateSamples ss).confusion_arrays k =
      t.confusion_arrays k ++ (ss.filter (fun s => sampleKey s = k)).map (fun s => s.1) ∧
    (t.updateSamples ss).confusion_paths k =
      t.confusion_paths k ++ (ss.filter (fun s => sampleKey s = k)).flatMap (fun s => s.2.2.toList) := by
  induction ss generalizing t with
  | nil => simp [MetricTracker.updateSamples]
  | cons s rest ih =>
    obtain ⟨c, l, p⟩ := s
    have hm : t.updateSamples ((c, l, p) :: rest) = (t.confStep c l p).updateSamples rest := rfl
    obtain ⟨ihc, iha, ihp⟩ := ih (t.confStep c l p)
    by_cases hk : sampleKey (c, l, p) = k
    · refine ⟨?_, ?_, ?_⟩
      · rw [hm, ihc, confStep_confusion_cnt, if_pos hk]
        simp [hk]
        omega
      · rw [hm, iha, confStep_confusion_arrays, if_pos hk]
        simp [hk]
      · rw [hm, ihp, confStep_confusion_paths, if_pos hk]
        simp [hk]
    · refine ⟨?_, ?_, ?_⟩
      · rw [hm, ihc, confStep_confusion_cnt, if_neg hk]
        simp [hk]
      · rw [hm, iha, confStep_confusion_arrays, if_neg hk]
        simp [hk]
      · rw [hm, ihp, confStep_confusion_paths, if_neg hk]
        simp [hk]

/-! ### C2: bucket assignment of `update` -/

theorem sampleKey_mk (a : ℚ) (b : ℕ) (p : Option String) :
    sampleKey (a, b, p) = bucketKey (decide ((1 : ℚ)/2 < a)) b := rfl

theorem update_confusion_cnt (t : MetricTracker) (σ : ℚ → ℚ) (loss : ℚ)
    (preds : List ℚ) (labels : List ℕ) (paths : Option (List String)) (k : ConfKey) :
    (t.update σ loss preds labels paths).confusion_cnt k =
      t.confusion_cnt k +
        ((mkSamples σ preds labels paths).filter (fun s => sampleKey s = k)).length :=
  (updateSamples_spec _ _ k).1

theorem update_confusion_arrays (t : MetricTracker) (σ : ℚ → ℚ) (loss : ℚ)
    (preds : List ℚ) (labels : List ℕ) (paths : Option (List String)) (k : ConfKey) :
    (t.update σ loss preds labels paths).confusion_arrays k =
      t.confusion_arrays k ++
        ((mkSamples σ preds labels paths).filter (fun s => sampleKey s = k)).map (fun s => s.1) :=
  (updateSamples_spec _ _ k).2.1

theorem update_confusion_paths (t : MetricTracker) (σ : ℚ → ℚ) (loss : ℚ)
    (preds : List ℚ) (labels : List ℕ) (paths : Option (List String)) (k : ConfKey) :
    (t.update σ loss preds labels paths).confusion_paths k =
      t.confusion_paths k ++
        ((mkSamples σ preds labels paths).filter (fun s => sampleKey s = k)).flatMap
          (fun s => s.2.2.toList) :=
  (updateSamples_spec _ _ k).2.2

theorem bucketKey_characterization (c : ℚ) (l : ℕ) (hl : l = 0 ∨ l = 1) :
    ((bucketKey (decide ((1 : ℚ)/2 < c)) l = .tp) ↔ ((1 : ℚ)/2 < c ∧ l = 1)) ∧
    ((bucketKey (decide ((1 : ℚ)/2 < c)) l = .tn) ↔ (¬ (1 : ℚ)/2 < c ∧ l = 0)) ∧
    ((bucketKey (decide ((1 : ℚ)/2 < c)) l = .fn) ↔ (¬ (1 : ℚ)/2 < c ∧ l = 1)) ∧
    ((bucketKey (decide ((1 : ℚ)/2 < c)) l = .fp) ↔ ((1 : ℚ)/2 < c ∧ l = 0)) := by
  rcases hl with hl | hl <;> subst hl <;> by_cases hc : (1 : ℚ)/2 < c
  · rw [decide_eq_true hc]
    exact ⟨iff_of_false (by decide) (fun h => absurd h.2 (by decide)),
      iff_of_false (by decide) (fun h => h.1 hc),
      iff_of_false (by decide) (fun h => h.1 hc),
      iff_of_true (by decide) ⟨hc, rfl⟩⟩
  · rw [decide_eq_false hc]
    exact ⟨iff_of_false (by decide) (fun h => hc h.1),
      iff_of_true (by decide) ⟨hc, rfl⟩,
      iff_of_false (by decide) (fun h => absurd h.2 (by decide)),
      iff_of_false (by decide) (fun h => hc h.1)⟩
  · rw [decide_eq_true hc]
    exact ⟨iff_of_true (by decide) ⟨hc, rfl⟩,
      iff_of_false (by decide) (fun h => h.1 hc),
      iff_of_false (by decide) (fun h => h.1 hc),
      iff_of_false (by decide) (fun h => absurd h.2 (by decide))⟩
  · rw [decide_eq_false hc]
    exact ⟨iff_of_false (by decide) (fun h => hc h.1),
      iff_of_false (by decide) (fun h => absurd h.2 (by decide)),
      iff_of_true (by decide) ⟨hc, rfl⟩,
      iff_of_false (by decide) (fun h => hc h.1)⟩

theorem mkSamples_some_filter_eq (σ : ℚ → ℚ) (preds : List ℚ) (labels : List ℕ)
    (ps : List String) (k : ConfKey) :
    (mkSamples σ preds labels (some ps)).filter (fun s => sampleKey s = k) =
      ((((preds.map σ).zip labels).zip ps).filter
        (fun z => bucketKey (decide ((1 : ℚ)/2 < z.1.1)) z.1.2 = k)).map
        (fun z => (z.1.1, z.1.2, some z.2)) := by
  simp only [mkSamples, List.zip_map_left, List.filter_map, List.map_map]
  rfl

theorem mkSamples_none_filter_eq (σ : ℚ → ℚ) (preds : List ℚ) (labels : List ℕ)
    (k : ConfKey) :
    (mkSamples σ preds labels none).filter (fun s => sampleKey s = k) =
      (((preds.map σ).zip labels).filter
        (fun z => bucketKey (decide ((1 : ℚ)/2 < z.1)) z.2 = k)).map
        (fun z => (z.1, z.2, none)) := by
  simp only [mkSamples, List.zip_map_left, List.filter_map, List.map_map]
  rfl

theorem flatMap_nil_fun {α β : Type} (l : List α) :
    (l.flatMap fun _ => ([] : List β)) = [] := by
  induction l with
  | nil => rfl
  | cons a tl ih => simp [List.flatMap_cons, ih]

/-- C2: in an `update(loss, preds, labels, paths)` call, each sample is
assigned to exactly one bucket, characterized by `sigmoid(pred) > 1/2`
and the label (for labels in `{0,1}`); whether `paths` is supplied or
`None`, the assigned bucket's count grows by one per sample and the
sigmoid confidence is appended to its array, while the path is appended
to its path list exactly when `paths` is supplied. -/
theorem update_bucket_assignment (σ : ℚ → ℚ) (t : MetricTracker) (loss : ℚ)
    (preds : List ℚ) (labels : List ℕ) (ps : List String)
    (hlen : preds.length = labels.length) (hps : ps.length = labels.length)
    (hlab : ∀ l ∈ labels, l = 0 ∨ l = 1) (k : ConfKey) :
    (∀ c : ℚ, ∀ l : ℕ, l = 0 ∨ l = 1 →
      ((bucketKey (decide ((1 : ℚ)/2 < c)) l = .tp) ↔ ((1 : ℚ)/2 < c ∧ l = 1)) ∧
      ((bucketKey (decide ((1 : ℚ)/2 < c)) l = .tn) ↔ (¬ (1 : ℚ)/2 < c ∧ l = 0)) ∧
      ((bucketKey (decide ((1 : ℚ)/2 < c)) l = .fn) ↔ (¬ (1 : ℚ)/2 < c ∧ l = 1)) ∧
      ((bucketKey (decide ((1 : ℚ)/2 < c)) l = .fp) ↔ ((1 : ℚ)/2 < c ∧ l = 0))) ∧
    (t.update σ loss preds labels (some ps)).confusion_cnt k =
      t.confusion_cnt k +
        ((((preds.map σ).zip labels).zip ps).filter
          (fun z => bucketKey (decide ((1 : ℚ)/2 < z.1.1)) z.1.2 = k)).length ∧
    (t.update σ loss preds labels (some ps)).confusion_arrays k =
      t.confusion_arrays k ++
        ((((preds.map σ).zip labels).zip ps).filter
          (fun z => bucketKey (decide ((1 : ℚ)/2 < z.1.1)) z.1.2 = k)).map (fun z => z.1.1) ∧
    (t.update σ loss preds labels (some ps)).confusion_paths k =
      t.confusion_paths k ++
        ((((preds.map σ).zip labels).zip ps).filter
          (fun z => bucketKey (decide ((1 : ℚ)/2 < z.1.1)) z.1.2 = k)).map Prod.snd ∧
    (t.update σ loss preds labels none).confusion_cnt k =
      t.confusion_cnt k +
        (((preds.map σ).zip labels).filter
          (fun z => bucketKey (decide ((1 : ℚ)/2 < z.1)) z.2 = k)).length ∧
    (t.update σ loss preds labels none).confusion_arrays k =
      t.confusion_arrays k ++
        (((preds.map σ).zip labels).filter
          (fun z => bucketKey (decide ((1 : ℚ)/2 < z.1)) z.2 = k)).map (fun z => z.1) ∧
    (t.update σ loss preds labels none).confusion_paths k = t.confusion_paths k := by
  refine ⟨fun c l hl => bucketKey_characterization c l hl, ?_, ?_, ?_, ?_, ?_, ?_⟩
  · rw [update_confusion_cnt, mkSamples_some_filter_eq, List.length_map]
  · rw [update_confusion_arrays, mkSamples_some_filter_eq, List.map_map]
    rfl
  · rw [update_confusion_paths, mkSamples_some_filter_eq, List.flatMap_map]
    conv_rhs => rw [List.map_eq_flatMap]
    rfl
  · rw [update_confusion_cnt, mkSamples_none_filter_eq, List.length_map]
  · rw [update_confusion_arrays, mkSamples_none_filter_eq, List.map_map]
    rfl
  · rw [update_confusion_paths]
    have h1 : ((mkSamples σ preds labels none).filter
        (fun s => sampleKey s = k)).flatMap (fun s => s.2.2.toList) = [] := by
      rw [List.flatMap_eq_nil_iff]
      intro s hs
      have hsm : s ∈ mkSamples σ preds labels none := (List.mem_filter.mp hs).1
      simp only [mkSamples, List.mem_map] at hsm
      obtain ⟨b, _, hb⟩ := hsm
      rw [← hb]
      rfl
    rw [h1, List.append_nil]

/-- Witness for C2 at a concrete batch of two samples. -/
theorem update_bucket_assignment_witness :
    ([(1 : ℚ), 0].length = [1, 0].length) ∧ (["a", "b"].length = [1, 0].length) ∧
    (∀ l ∈ [1, 0], l = 0 ∨ l = 1) ∧
    (MetricTracker.mkEmpty.update id 0 [1, 0] [1, 0] (some ["a", "b"])).confusion_cnt .tp =
      MetricTracker.mkEmpty.confusion_cnt .tp +
        (((([(1 : ℚ), 0].map id).zip [1, 0]).zip ["a", "b"]).filter
          (fun z => bucketKey (decide ((1 : ℚ)/2 < z.1.1)) z.1.2 = ConfKey.tp)).length ∧
    (MetricTracker.mkEmpty.update id 0 [1, 0] [1, 0] none).confusion_cnt .tp =
      MetricTracker.mkEmpty.confusion_cnt .tp +
        ((([(1 : ℚ), 0].map id).zip [1, 0]).filter
          (fun z => bucketKey (decide ((1 : ℚ)/2 < z.1)) z.2 = ConfKey.tp)).length :=
  ⟨rfl, rfl, by decide,
    (update_bucket_assignment id MetricTracker.mkEmpty 0 [1, 0] [1, 0] ["a", "b"]
      rfl rfl (by decide) ConfKey.tp).2.1,
    (update_bucket_assignment id MetricTracker.mkEmpty 0 [1, 0] [1, 0] ["a", "b"]
      rfl rfl (by decide) ConfKey.tp).2.2.2.2.1⟩

/-! ### C9: reachable-state invariants -/

theorem mkSamples_none_length (σ : ℚ → ℚ) (preds : List ℚ) (labels : List ℕ) :
    (mkSamples σ preds labels none).length = min preds.length labels.length := by
  simp [mkSamples]

theorem mkSamples_some_length (σ : ℚ → ℚ) (preds : List ℚ) (labels : List ℕ)
    (ps : List String) :
    (mkSamples σ preds labels (some ps)).length =
      min (min preds.length labels.length) ps.length := by
  simp [mkSamples]

theorem filter_sampleKey_partition (ss : List (ℚ × ℕ × Option String)) :
    (ss.filter (fun s => sampleKey s = ConfKey.tp)).length +
    (ss.filter (fun s => sampleKey s = ConfKey.tn)).length +
    (ss.filter (fun s => sampleKey s = ConfKey.fp)).length +
    (ss.filter (fun s => sampleKey s = ConfKey.fn)).length = ss.length := by
  induction ss with
  | nil => rfl
  | cons s rest ih =>
    rcases hk : sampleKey s <;> simp [List.filter_cons, hk] <;> omega

theorem mkSamples_some_all_some (σ : ℚ → ℚ) (preds : List ℚ) (labels : List ℕ)
    (ps : List String) :
    ∀ s ∈ mkSamples σ preds labels (some ps), s.2.2.isSome := by
  intro s hs
  simp only [mkSamples, List.mem_map] at hs
  obtain ⟨b, _, hb⟩ := hs
  rw [← hb]
  rfl

theorem flatMap_toList_length_of_all_some (l : List (ℚ × ℕ × Option String))
    (h : ∀ s ∈ l, s.2.2.isSome) :
    (l.flatMap (fun s => s.2.2.toList)).length = l.length := by
  induction l with
  | nil => rfl
  | cons s rest ih =>
    have hs : s.2.2.isSome := h s (List.mem_cons_self s rest)
    have hrest : ∀ x ∈ rest, x.2.2.isSome := fun x hx => h x (List.mem_cons_of_mem s hx)
    obtain ⟨q, hq⟩ := Option.isSome_iff_exists.mp hs
    simp [List.flatMap_cons, hq, ih hrest]

/-- C9: every reachable tracker state keeps, for each bucket, its count
equal to the length of its confidence array; the four counts sum to the
number of samples processed; and if every `update` call supplied paths,
each count also equals the length of the bucket's path list. -/
theorem metric_tracker_invariant (t : MetricTracker) (n : ℕ) (b : Bool)
    (h : Reachable t n b) :
    (∀ k, t.confusion_cnt k = (t.confusion_arrays k).length) ∧
    (t.confusion_cnt .tp + t.confusion_cnt .tn +
      t.confusion_cnt .fp + t.confusion_cnt .fn = n) ∧
    (b = true → ∀ k, t.confusion_cnt k = (t.confusion_paths k).length) := by
  induction h with
  | start => exact ⟨fun k => rfl, rfl, fun _ k => rfl⟩
  | stepNone σ loss preds labels hr hlen ih =>
    obtain ⟨ih1, ih2, _⟩ := ih
    refine ⟨?_, ?_, ?_⟩
    · intro k
      rw [update_confusion_cnt, update_confusion_arrays, List.length_append,
        List.length_map, ih1]
    · rename_i t0 n0 b0
      have hlen2 : (mkSamples σ preds labels none).length = labels.length := by
        rw [mkSamples_none_length, hlen]
        omega
      rw [update_confusion_cnt, update_confusion_cnt, update_confusion_cnt,
        update_confusion_cnt]
      have hpart := filter_sampleKey_partition (mkSamples σ preds labels none)
      omega
    · intro hfalse
      exact absurd hfalse (by simp)
  | stepSome σ loss preds labels ps hr hlen hps ih =>
    obtain ⟨ih1, ih2, ih3⟩ := ih
    refine ⟨?_, ?_, ?_⟩
    · intro k
      rw [update_confusion_cnt, update_confusion_arrays, List.length_append,
        List.length_map, ih1]
    · rename_i t0 n0 b0
      have hlen2 : (mkSamples σ preds labels (some ps)).length = labels.length := by
        rw [mkSamples_some_length, hlen, hps]
        omega
      rw [update_confusion_cnt, update_confusion_cnt, update_confusion_cnt,
        update_confusion_cnt]
      have hpart := filter_sampleKey_partition (mkSamples σ preds labels (some ps))
      omega
    · intro hb k
      rw [update_confusion_cnt, update_confusion_paths, List.length_append,
        ih3 hb k]
      have hall : ∀ s ∈ (mkSamples σ preds labels (some ps)).filter
          (fun s => sampleKey s = k), s.2.2.isSome :=
        fun s hs => mkSamples_some_all_some σ preds labels ps s (List.mem_of_mem_filter hs)
      rw [flatMap_toList_length_of_all_some _ hall]

/-- Witness for C9 after one concrete `update` call. -/
theorem metric_tracker_invariant_witness :
    (MetricTracker.mkEmpty.update id 1 [1] [1] (some ["p"])).confusion_cnt .tp +
      (MetricTracker.mkEmpty.update id 1 [1] [1] (some ["p"])).confusion_cnt .tn +
      (MetricTracker.mkEmpty.update id 1 [1] [1] (some ["p"])).confusion_cnt .fp +
      (MetricTracker.mkEmpty.update id 1 [1] [1] (some ["p"])).confusion_cnt .fn = 1 :=
  (metric_tracker_invariant _ 1 true
    (Reachable.stepSome id 1 [1] [1] ["p"] Reachable.start rfl rfl)).2.1

/-! ### C1 / C10: balanced selection -/

theorem choiceNoReplace_isSome (k : ℕ) : ∀ (pop r : List ℕ),
    (choiceNoReplace pop k r).isSome = true ↔ k ≤ pop.length := by
  induction k with
  | zero =>
    intro pop r
    simp [choiceNoReplace]
  | succ k ih =>
    intro pop r
    rw [choiceNoReplace]
    split
    · rename_i h
      rw [Option.isSome_map', ih]
      have hx : pop.get ⟨r.headD 0 % pop.length, Nat.mod_lt _ h⟩ ∈ pop := pop.get_mem _ _
      rw [List.length_erase_of_mem hx]
      omega
    · rename_i h
      have hp : pop.length = 0 := by omega
      rw [hp]
      simp

theorem choiceNoReplace_some (k : ℕ) : ∀ (pop r l : List ℕ),
    choiceNoReplace pop k r = some l →
      l.length = k ∧ (∀ x ∈ l, x ∈ pop) ∧ (pop.Nodup → l.Nodup) := by
  induction k with
  | zero =>
    intro pop r l h
    simp only [choiceNoReplace, Option.some_inj] at h
    subst h
    exact ⟨rfl, by simp, fun _ => List.nodup_nil⟩
  | succ k ih =>
    intro pop r l h
    rw [choiceNoReplace] at h
    split at h
    · rename_i hp
      rw [Option.map_eq_some'] at h
      obtain ⟨rest, hrest, hl⟩ := h
      obtain ⟨hlen, hsub, hnd⟩ := ih _ _ _ hrest
      subst hl
      set x := pop.get ⟨r.headD 0 % pop.length, Nat.mod_lt _ hp⟩ with hx
      have hxmem : x ∈ pop := pop.get_mem _ _
      refine ⟨by simp [hlen], ?_, ?_⟩
      · intro y hy
        rcases List.mem_cons.mp hy with hyx | hy
        · rw [hyx]
          exact hxmem
        · exact List.erase_subset x pop (hsub y hy)
      · intro hnodup
        refine List.nodup_cons.mpr ⟨?_, hnd (hnodup.erase x)⟩
        intro hc
        exact hnodup.not_mem_erase (hsub x hc)
    · exact absurd h (by simp)

theorem map_getD_range {α : Type} (l : List α) (d : α) :
    (List.range l.length).map (fun i => l.getD i d) = l := by
  apply List.ext_getElem
  · simp
  · intro i h1 h2
    simp [List.getElem?_eq_getElem h2]

theorem positiveIndices_length (samples : List (String × ℕ)) :
    (positiveIndices samples).length =
      (samples.filter (fun s => s.2 = 1)).length := by
  unfold positiveIndices
  conv_rhs => rw [← map_getD_range samples ("", 0)]
  rw [List.filter_map, List.length_map]
  rfl

theorem negativeIndices_length (samples : List (String × ℕ)) :
    (negativeIndices samples).length =
      (samples.filter (fun s => s.2 = 0)).length := by
  unfold negativeIndices
  conv_rhs => rw [← map_getD_range samples ("", 0)]
  rw [List.filter_map, List.length_map]
  rfl

/-- C1: when there are at least as many negatives as positives,
`get_balanced_indices` returns every positive index exactly once (the
positive index list is duplicate-free and characterized by label `1`),
followed by exactly as many pairwise-distinct negative indices, so half
of the returned indices carry label `1`. -/
theorem get_balanced_indices_balanced (samples : List (String × ℕ)) (r : List ℕ)
    (hbal : (positiveIndices samples).length ≤ (negativeIndices samples).length) :
    ∃ negs : List ℕ,
      get_balanced_indices samples r = some (positiveIndices samples ++ negs) ∧
      negs.length = (positiveIndices samples).length ∧
      negs.Nodup ∧
      (∀ i ∈ negs, i < samples.length ∧ (samples.getD i ("", 0)).2 = 0) ∧
      (positiveIndices samples).Nodup ∧
      (∀ i, i ∈ positiveIndices samples ↔
        i < samples.length ∧ (samples.getD i ("", 0)).2 = 1) ∧
      (positiveIndices samples ++ negs).length = 2 * (positiveIndices samples).length ∧
      ((positiveIndices samples ++ negs).filter
        (fun i => (samples.getD i ("", 0)).2 = 1)).length =
          (positiveIndices samples).length := by
  have hsome : (choiceNoReplace (negativeIndices samples)
      (positiveIndices samples).length r).isSome :=
    (choiceNoReplace_isSome _ _ _).mpr hbal
  obtain ⟨negs, hnegs⟩ := Option.isSome_iff_exists.mp hsome
  obtain ⟨hlen, hsub, hnd⟩ := choiceNoReplace_some _ _ _ _ hnegs
  have hnegnodup : (negativeIndices samples).Nodup := (List.nodup_range _).filter _
  have hnegmem : ∀ i ∈ negs, i < samples.length ∧ (samples.getD i ("", 0)).2 = 0 := by
    intro i hi
    have hmem := hsub i hi
    simpa [negativeIndices, List.mem_filter, List.mem_range] using hmem
  refine ⟨negs, ?_, hlen, hnd hnegnodup, hnegmem, (List.nodup_range _).filter _, ?_, ?_, ?_⟩
  · unfold get_balanced_indices
    rw [hnegs]
    rfl
  · intro i
    simp [positiveIndices, List.mem_filter, List.mem_range]
  · rw [List.length_append, hlen]
    omega
  · rw [List.filter_append]
    have h1 : (positiveIndices samples).filter
        (fun i => (samples.getD i ("", 0)).2 = 1) = positiveIndices samples := by
      apply List.filter_eq_self.mpr
      intro a ha
      have hmem : a < samples.length ∧ (samples.getD a ("", 0)).2 = 1 := by
        simpa [positiveIndices, List.mem_filter, List.mem_range] using ha
      exact decide_eq_true hmem.2
    have h2 : negs.filter (fun i => (samples.getD i ("", 0)).2 = 1) = [] := by
      apply List.filter_eq_nil_iff.mpr
      intro a ha
      have h3 := (hnegmem a ha).2
      exact fun hc => absurd (of_decide_eq_true hc) (by rw [h3]; decide)
    rw [h1, h2, List.append_nil]

/-- Witness for C1 on a concrete four-sample dataset. -/
theorem get_balanced_indices_balanced_witness :
    (positiveIndices [("a", 1), ("b", 0), ("c", 0), ("d", 1)]).length ≤
      (negativeIndices [("a", 1), ("b", 0), ("c", 0), ("d", 1)]).length ∧
    ∃ negs : List ℕ,
      get_balanced_indices [("a", 1), ("b", 0), ("c", 0), ("d", 1)] [] =
        some (positiveIndices [("a", 1), ("b", 0), ("c", 0), ("d", 1)] ++ negs) ∧
      negs.length = (positiveIndices [("a", 1), ("b", 0), ("c", 0), ("d", 1)]).length :=
  ⟨by decide,
    match get_balanced_indices_balanced [("a", 1), ("b", 0), ("c", 0), ("d", 1)] []
      (by decide) with
    | ⟨negs, h1, h2, _⟩ => ⟨negs, h1, h2⟩⟩

/-- C10: `get_balanced_indices` succeeds if and only if the number of
label-1 samples is at most the number of label-0 samples. -/
theorem get_balanced_indices_isSome_iff (samples : List (String × ℕ)) (r : List ℕ) :
    (get_balanced_indices samples r).isSome = true ↔
      (samples.filter (fun s => s.2 = 1)).length ≤
        (samples.filter (fun s => s.2 = 0)).length := by
  unfold get_balanced_indices
  rw [Option.isSome_map', choiceNoReplace_isSome, positiveIndices_length,
    negativeIndices_length]

/-! ### C3: directory labels from the sorted subdirectory list -/

theorem buildLabelMap_not_mem (ds : List String) : ∀ (i : ℕ) (m : String → ℕ)
    (d : String), d ∉ ds → buildLabelMap ds i m d = m d := by
  induction ds with
  | nil => intro i m d _; rfl
  | cons hd tl ih =>
    intro i m d hd2
    have h1 : d ∉ tl := fun h => hd2 (List.mem_cons_of_mem _ h)
    have h2 : d ≠ hd := fun h => hd2 (h ▸ List.mem_cons_self hd tl)
    rw [buildLabelMap, ih (i + 1) _ d h1]
    simp [h2]

theorem buildLabelMap_mem (ds : List String) : ∀ (i : ℕ) (m : String → ℕ)
    (d : String), ds.Nodup → d ∈ ds → buildLabelMap ds i m d = i + ds.indexOf d := by
  induction ds with
  | nil =>
    intro i m d _ h
    exact absurd h (List.not_mem_nil d)
  | cons hd tl ih =>
    intro i m d hnd hmem
    rw [buildLabelMap]
    by_cases hd2 : d = hd
    · subst hd2
      have h1 : d ∉ tl := (List.nodup_cons.mp hnd).1
      rw [buildLabelMap_not_mem tl (i + 1) _ d h1]
      simp [List.indexOf_cons_self]
    · have h3 : d ∈ tl := by
        rcases List.mem_cons.mp hmem with h | h
        · exact absurd h hd2
        · exact h
      rw [ih (i + 1) _ d (List.nodup_cons.mp hnd).2 h3,
        List.indexOf_cons_ne tl (fun h => hd2 h.symm)]
      omega

theorem dirLabelMap_indexOf (subdirs : List String) (hnd : subdirs.Nodup)
    (d : String) (hd : d ∈ subdirs) :
    dirLabelMap subdirs d = subdirs.indexOf d := by
  unfold dirLabelMap
  rw [buildLabelMap_mem subdirs 0 _ d hnd hd]
  omega

theorem subdirsSorted_nodup (fs : List (String × List String))
    (h : (fs.map Prod.fst).Nodup) : (subdirsSorted fs).Nodup :=
  ((List.perm_insertionSort _ _).nodup_iff).mpr h

theorem subdirsSorted_eq_of_same_names (fs fs2 : List (String × List String))
    (h1 : (fs.map Prod.fst).Nodup) (h2 : (fs2.map Prod.fst).Nodup)
    (hm : ∀ x, x ∈ fs.map Prod.fst ↔ x ∈ fs2.map Prod.fst) :
    subdirsSorted fs = subdirsSorted fs2 := by
  have hperm : List.Perm (fs.map Prod.fst) (fs2.map Prod.fst) := by
    apply List.perm_of_nodup_nodup_toFinset_eq h1 h2
    apply Finset.ext
    intro a
    simp only [List.mem_toFinset]
    exact hm a
  exact List.eq_of_perm_of_sorted
    (((List.perm_insertionSort _ _).trans hperm).trans
      (List.perm_insertionSort _ _).symm)
    (List.sorted_insertionSort _ _) (List.sorted_insertionSort _ _)

/-- C3: every collected sample's label is the position of its parent
directory's name in the sorted subdirectory list, and the name-to-label
mapping depends only on the set of subdirectory names. -/
theorem dataset_labels_alphabetical (root : String) (fs fs2 : List (String × List String))
    (hnd : (fs.map Prod.fst).Nodup) (hnd2 : (fs2.map Prod.fst).Nodup)
    (hset : ∀ x, x ∈ fs.map Prod.fst ↔ x ∈ fs2.map Prod.fst) :
    (∀ s ∈ ECOLDataset.samples root fs, ∃ d img,
      d ∈ subdirsSorted fs ∧ img ∈ filesOf fs d ∧
      s = (joinPath (joinPath root d) img, (subdirsSorted fs).indexOf d)) ∧
    subdirsSorted fs = subdirsSorted fs2 ∧
    (∀ d, dirLabelMap (subdirsSorted fs) d = dirLabelMap (subdirsSorted fs2) d) := by
  have heq : subdirsSorted fs = subdirsSorted fs2 :=
    subdirsSorted_eq_of_same_names fs fs2 hnd hnd2 hset
  refine ⟨?_, heq, fun d => by rw [heq]⟩
  intro s hs
  unfold ECOLDataset.samples at hs
  rw [List.mem_flatMap] at hs
  obtain ⟨d, hd, hs2⟩ := hs
  rw [List.mem_map] at hs2
  obtain ⟨img, himg, himgeq⟩ := hs2
  refine ⟨d, img, hd, himg, ?_⟩
  rw [← himgeq, dirLabelMap_indexOf _ (subdirsSorted_nodup fs hnd) d hd]

/-- Witness for C3 on a concrete one-directory file system. -/
theorem dataset_labels_alphabetical_witness :
    ((([(("a" : String), ["x", "y"])]).map Prod.fst).Nodup) ∧
    subdirsSorted [("a", ["x", "y"])] = subdirsSorted [("a", ["x", "y"])] :=
  ⟨by simp,
    (dataset_labels_alphabetical "/root" [("a", ["x", "y"])] [("a", ["x", "y"])]
      (by simp) (by simp) (fun x => Iff.rfl)).2.1⟩

/-! ### C7: positional indexing of the dataset -/

/-- C7: the dataset is the ordered sample sequence: `__len__` is the
number of collected samples, and `__getitem__(idx)` returns the decoded,
color-converted, transformed image of, the label of, and the path of the
sample at position `idx`, for every in-range `idx`. -/
theorem dataset_positional_indexing {Img : Type} (imread : String → Img)
    (cvtColor transform : Img → Img) (root : String)
    (fs : List (String × List String)) :
    ECOLDataset.length root fs = (ECOLDataset.samples root fs).length ∧
    (∀ idx (h : idx < (ECOLDataset.samples root fs).length),
      ECOLDataset.getItem imread cvtColor transform root fs idx =
        some (transform (cvtColor (imread ((ECOLDataset.samples root fs).get ⟨idx, h⟩).1)),
          ((ECOLDataset.samples root fs).get ⟨idx, h⟩).2,
          ((ECOLDataset.samples root fs).get ⟨idx, h⟩).1)) ∧
    (∀ idx, (ECOLDataset.samples root fs).length ≤ idx →
      ECOLDataset.getItem imread cvtColor transform root fs idx = none) := by
  refine ⟨rfl, ?_, ?_⟩
  · intro idx h
    unfold ECOLDataset.getItem
    rw [List.get?_eq_get h]
    rfl
  · intro idx h
    unfold ECOLDataset.getItem
    rw [List.get?_eq_none.mpr h]
    rfl

/-- Witness for C7 reading the first sample of a concrete dataset. -/
theorem dataset_positional_indexing_witness :
    (0 < (ECOLDataset.samples "/r" [("a", ["x"])]).length) ∧
    ECOLDataset.getItem (fun p => p) (fun i => i) (fun i => i) "/r" [("a", ["x"])] 0 =
      some ("/r/a/x", 0, "/r/a/x") := by
  have h0 : 0 < (ECOLDataset.samples "/r" [("a", ["x"])]).length := by
    decide
  refine ⟨h0, ?_⟩
  have h := (dataset_positional_indexing (fun p : String => p)
    (fun i : String => i) (fun i : String => i) "/r" [("a", ["x"])]).2.1 0 h0
  rw [h]
  rfl

/-! ### C5: the train/validation split -/

/-- C5: when the index-selection phase yields the selected sequence `di`
of size `dsize`, the validation sampler receives exactly the first
`floor(test_size * dsize)` selected indices and the training sampler the
remaining ones: together they cover `di` and, on duplicate-free
selections, they are disjoint. -/
theorem load_split (samples : List (String × ℕ)) (balance shuffle : Bool)
    (r rs : List ℕ) (dsa : Option ℕ) (test_size : ℚ) (di : List ℕ) (dsize : ℕ)
    (hsel : selectIndices samples balance shuffle r rs dsa = some (di, dsize))
    (hlen : di.length = dsize) :
    load_dataset_ECOL_labeled samples balance shuffle r rs dsa test_size =
      some (di.drop (valSplitIndex test_size dsize),
        di.take (valSplitIndex test_size dsize)) ∧
    di.take (valSplitIndex test_size dsize) ++
      di.drop (valSplitIndex test_size dsize) = di ∧
    (valSplitIndex test_size dsize ≤ dsize →
      (di.take (valSplitIndex test_size dsize)).length = valSplitIndex test_size dsize ∧
      (di.drop (valSplitIndex test_size dsize)).length =
        dsize - valSplitIndex test_size dsize) ∧
    (di.Nodup → List.Disjoint (di.take (valSplitIndex test_size dsize))
      (di.drop (valSplitIndex test_size dsize))) := by
  refine ⟨?_, List.take_append_drop _ _, ?_, ?_⟩
  · unfold load_dataset_ECOL_labeled
    rw [hsel]
    rfl
  · intro hv
    constructor
    · rw [List.length_take]
      omega
    · rw [List.length_drop]
      omega
  · intro hnd
    exact List.disjoint_take_drop hnd le_rfl

/-- Witness for C5 on a concrete balanced, unshuffled selection. -/
theorem load_split_witness :
    selectIndices [("a", 1), ("b", 0), ("c", 0), ("d", 1)] true false [] [] none =
      some ([0, 3, 1, 2], 4) ∧
    load_dataset_ECOL_labeled [("a", 1), ("b", 0), ("c", 0), ("d", 1)] true false
      [] [] none (1/2) = some ([1, 2], [0, 3]) := by
  have hsel : selectIndices [("a", 1), ("b", 0), ("c", 0), ("d", 1)] true false
      [] [] none = some ([0, 3, 1, 2], 4) := by decide
  refine ⟨hsel, ?_⟩
  have hv : valSplitIndex (1/2 : ℚ) 4 = 2 := by
    unfold valSplitIndex
    norm_num
    decide
  have h := (load_split [("a", 1), ("b", 0), ("c", 0), ("d", 1)] true false
    [] [] none (1/2) [0, 3, 1, 2] 4 hsel rfl).1
  rw [hv] at h
  rw [h]
  rfl
